import Mathlib

/-!
Shallow embedding of the argmin/argmax reduction engine in
`polars/polars-ops/src/series/ops/arg_min_max.rs`.

Modelling conventions:
* A chunked sequence is a list of chunks; a numeric/boolean chunk is a list of
  `(raw value, is-valid)` pairs, so that the raw value stored behind a null
  position is observable (the numeric kernels read raw values without
  consulting the validity bitmap).
* Machine `usize` subtraction `len - 1` is modelled by `usizeSub1`, the exact
  wrapping subtraction modulo `2^64` (release-mode Rust semantics); for
  `1 ≤ n < 2^64` it agrees with `n - 1`.
* Numeric values are modelled as `Int`; text values as byte lists
  (`ByteStr := List Nat`), compared lexicographically exactly as Rust compares
  `&str` (byte-wise lexicographic order).  `Option<&str>` ordering (`None`
  below every string) is `optStrOrd`.
* The external vectorized `argmin`/`argmax` primitive of the `argminmax` crate
  and the helpers of `polars-core`/`arrow2` that live outside this source file
  (`cont_slice`, `BooleanChunked::all`, `is_sorted_flag2`, the 64-bit
  `BitChunkIterExact` iterators) are modelled from the specification; each
  such definition carries a doc comment saying so.
-/

/-- The sortedness flag, `polars_core::series::IsSorted`
(`is_sorted_flag2` returns `Ascending`, `Descending` or `Not`). -/
inductive IsSorted where
  | Ascending
  | Descending
  | Not
deriving DecidableEq, Repr

/-- Number of values representable in a Rust `usize` (64-bit target). -/
def usizeSize : Nat := 18446744073709551616

/-- Wrapping `usize` subtraction of 1, i.e. the value of the Rust expression
`n - 1` on a `usize` in release mode: `(n + 2^64 - 1) % 2^64`. -/
def usizeSub1 (n : Nat) : Nat := (n + 18446744073709551615) % usizeSize

/-- Rust `Iterator::position`: index of the first element satisfying `p`. -/
def pos? (p : α → Bool) : List α → Option Nat
  | [] => none
  | x :: xs => if p x then some 0 else (pos? p xs).map (· + 1)

/-- Concatenation of a list of lists (chunk flattening). -/
def joinAll : List (List α) → List α
  | [] => []
  | l :: ls => l ++ joinAll ls

/-- A decidable strict order given by a boolean comparator together with the
strict-weak-order laws the argmin/argmax reasoning needs. -/
structure StrictOrder (α : Type) where
  lt : α → α → Bool
  irrefl : ∀ a, lt a a = false
  lt_trans : ∀ a b c, lt a b = true → lt b c = true → lt a c = true
  nlt_trans : ∀ a b c, lt a b = false → lt b c = false → lt a c = false

/-- The reversed order; argmax machinery is argmin machinery over the flip. -/
def StrictOrder.flip (o : StrictOrder α) : StrictOrder α where
  lt a b := o.lt b a
  irrefl := o.irrefl
  lt_trans a b c h1 h2 := o.lt_trans c b a h2 h1
  nlt_trans a b c h1 h2 := o.nlt_trans c b a h2 h1

/-- The order on numeric (modelled `Int`) values. -/
def intOrd : StrictOrder Int where
  lt a b := decide (a < b)
  irrefl a := by simp
  lt_trans a b c h1 h2 := by simp at h1 h2 ⊢; omega
  nlt_trans a b c h1 h2 := by simp at h1 h2 ⊢; omega

/-- A Rust `&str` modelled as its UTF-8 byte sequence. -/
abbrev ByteStr := List Nat

/-- Byte-wise lexicographic comparison, Rust's `Ord` on byte slices / `&str`. -/
def lexLt : ByteStr → ByteStr → Bool
  | [], [] => false
  | [], _ :: _ => true
  | _ :: _, [] => false
  | a :: as, b :: bs => if a < b then true else if b < a then false else lexLt as bs

/-- Rust's `PartialOrd` on `Option<&str>`: `None` is below every string. -/
def optStrLt : Option ByteStr → Option ByteStr → Bool
  | none, none => false
  | none, some _ => true
  | some _, none => false
  | some a, some b => lexLt a b

theorem lexLt_irrefl (a : ByteStr) : lexLt a a = false := by
  induction a with
  | nil => rfl
  | cons x xs ih => simp [lexLt, ih]

theorem lexLt_trans : ∀ a b c : ByteStr,
    lexLt a b = true → lexLt b c = true → lexLt a c = true := by
  intro a
  induction a with
  | nil =>
    intro b c h1 h2
    cases b with
    | nil => simp [lexLt] at h1
    | cons y ys =>
      cases c with
      | nil => simp [lexLt] at h2
      | cons z zs => simp [lexLt]
  | cons x xs ih =>
    intro b c h1 h2
    cases b with
    | nil => simp [lexLt] at h1
    | cons y ys =>
      cases c with
      | nil => simp [lexLt] at h2
      | cons z zs =>
        simp only [lexLt] at h1 h2 ⊢
        split_ifs at h1 h2 ⊢ <;> first | rfl | omega | (exact ih ys zs h1 h2)

theorem lexLt_nlt_trans : ∀ a b c : ByteStr,
    lexLt a b = false → lexLt b c = false → lexLt a c = false := by
  intro a
  induction a with
  | nil =>
    intro b c h1 h2
    cases b with
    | cons y ys => simp [lexLt] at h1
    | nil =>
      cases c with
      | cons z zs => simp [lexLt] at h2
      | nil => rfl
  | cons x xs ih =>
    intro b c h1 h2
    cases b with
    | nil =>
      cases c with
      | nil => rfl
      | cons z zs => simp [lexLt] at h2
    | cons y ys =>
      cases c with
      | nil => rfl
      | cons z zs =>
        simp only [lexLt] at h1 h2 ⊢
        split_ifs at h1 h2 ⊢ <;> first | rfl | omega | (exact ih ys zs h1 h2)

/-- The strict order used by the text reducer. -/
def optStrOrd : StrictOrder (Option ByteStr) where
  lt := optStrLt
  irrefl o := by
    cases o with
    | none => rfl
    | some a => simpa [optStrLt] using lexLt_irrefl a
  lt_trans o1 o2 o3 h1 h2 := by
    cases o1 <;> cases o2 <;> cases o3 <;>
      simp_all [optStrLt] <;> exact lexLt_trans _ _ _ h1 h2
  nlt_trans o1 o2 o3 h1 h2 := by
    cases o1 <;> cases o2 <;> cases o3 <;>
      simp_all [optStrLt] <;> exact lexLt_nlt_trans _ _ _ h1 h2

/-- First-biased binary minimum for a strict order: keeps `a` unless `b` is
strictly smaller. -/
def minB (o : StrictOrder α) (a b : α) : α := if o.lt b a then b else a

/-- Minimum value of a list under `o` (`none` for the empty list). -/
def listMin? (o : StrictOrder α) : List α → Option α
  | [] => none
  | x :: xs =>
    some (match listMin? o xs with
          | none => x
          | some m => minB o x m)

/-- Modelled from the spec: the external vectorized `argmin` primitive of the
`argminmax` crate (`slice.argmin()` / `slice.argmax()`, the latter via the
flipped order) — the index of the first occurrence of the extremum of a
non-empty slice; on `[]` (never reached through the guarded call sites) it
returns 0. -/
def argminL (o : StrictOrder α) : List α → Nat
  | [] => 0
  | x :: xs =>
    match listMin? o xs with
    | none => 0
    | some m => if o.lt m x then argminL o xs + 1 else 0

/-- Number of unset bits of a bitmap (`Bitmap::unset_bits`). -/
def unset_bits (mask : List Bool) : Nat := (mask.filter (fun b => !b)).length

/-- Modelled from the spec: the 64-bit chunk scan shared by
`first_set_bit_impl` / `first_unset_bit_impl`.  The `BitChunkIterExact`
iterators (both the aligned `BitChunksExact` and the realigning
`Bitmap::chunks` variants) yield `⌊len/64⌋` full 64-bit words of logical bits
followed by the `len mod 64` remainder bits, transparently realigning, so both
source branches compute the same function of the logical bit sequence.  For a
full word, the endianness-correct bit count (`trailing_zeros` /
`trailing_ones` on little-endian) is the index of the first target bit inside
that 64-bit group, or 64 when the group has no target bit (then the running
total advances by 64).  After the full words, the remainder is scanned bit by
bit (`remainder_iter().position(..)`); if no target bit is found anywhere the
scan returns 0. -/
def scanWords (p : Bool → Bool) : Nat → List Bool → Nat → Nat
  | 0, bits, total =>
    match pos? p bits with
    | some q => total + q
    | none => 0
  | n + 1, bits, total =>
    match pos? p (bits.take 64) with
    | some q => total + q
    | none => scanWords p n (bits.drop 64) (total + 64)

/-- Body of `first_set_bit_impl` / `first_unset_bit_impl`: scan the
`⌊len/64⌋` full 64-bit words, then the remainder. -/
def scanLoop (p : Bool → Bool) (bits : List Bool) : Nat :=
  scanWords p (bits.length / 64) bits 0

/-- `first_set_bit`: 0 immediately when the bitmap has zero unset bits or is
fully unset, otherwise the 64-bit word scan for the first set bit. -/
def first_set_bit (mask : List Bool) : Nat :=
  if unset_bits mask = 0 ∨ unset_bits mask = mask.length then 0
  else scanLoop (fun v => v) mask

/-- `first_unset_bit`: 0 immediately when the bitmap has zero unset bits or is
fully unset, otherwise the 64-bit word scan for the first unset bit. -/
def first_unset_bit (mask : List Bool) : Nat :=
  if unset_bits mask = 0 ∨ unset_bits mask = mask.length then 0
  else scanLoop (fun v => !v) mask

/-- Null count of a chunk of `(raw value, is-valid)` pairs. -/
def countInvalid (c : List (β × Bool)) : Nat := (c.filter (fun p => !p.2)).length

/-- The validity-aware element sequence of a chunked array
(`ca.into_iter()`): one `Option` per logical position, across all chunks. -/
def seqElems (cs : List (List (β × Bool))) : List (Option β) :=
  joinAll (cs.map (List.map (fun p => if p.2 then some p.1 else none)))

/-- A boolean chunk: raw bit value and validity per position. -/
abbrev BoolChunk := List (Bool × Bool)

/-- A `BooleanChunked` array: sortedness flag (never read by the boolean
reducers in the source) and chunks. -/
structure BoolSeq where
  flag : IsSorted
  chunks : List BoolChunk

/-- `ca.len()`: total length over all chunks. -/
def BoolSeq.len (s : BoolSeq) : Nat := (s.chunks.map List.length).sum

/-- `ca.null_count()`. -/
def BoolSeq.nullCount (s : BoolSeq) : Nat := (s.chunks.map countInvalid).sum

/-- `ca.into_iter()` as a list of optional booleans. -/
def BoolSeq.elems (s : BoolSeq) : List (Option Bool) := seqElems s.chunks

/-- `arr.values()` of the first chunk (used under the single-chunk guard):
the raw value bitmap, validity ignored. -/
def boolValues (s : BoolSeq) : List Bool := (s.chunks.headD []).map Prod.fst

/-- Modelled from the spec: `BooleanChunked::all` (polars-core, outside this
source file): true iff every non-null value is `true`, i.e. no `false`
value is present. -/
def BoolSeq.allSpec (s : BoolSeq) : Bool := s.elems.all (fun o => o != some false)

/-- `arg_max_bool`. -/
def arg_max_bool (s : BoolSeq) : Option Nat :=
  if s.len = 0 then none
  else if s.nullCount = s.len then some 0
  -- don't check for any, that on itself is already an argmax search
  else if s.nullCount = 0 ∧ s.chunks.length = 1 then
    some (first_set_bit (boolValues s))
  else
    pos? (fun o => o == some true) s.elems

/-- `arg_min_bool` (a null counts as lower in ordering than a set value). -/
def arg_min_bool (s : BoolSeq) : Option Nat :=
  if s.len = 0 ∨ s.nullCount = s.len ∨ s.allSpec then some 0
  else if s.nullCount = 0 ∧ s.chunks.length = 1 then
    some (first_unset_bit (boolValues s))
  else
    pos? (fun o => o == some false || o == none) s.elems

/-- A numeric chunk: raw value and validity per position. -/
abbrev NumChunk := List (Int × Bool)

/-- The raw value slice of a chunk (`arr.values().as_slice()`): null
positions are not excluded. -/
def rawC (c : NumChunk) : List Int := c.map Prod.fst

/-- Concatenation of the raw value slices of all chunks. -/
def rawJoin (cs : List NumChunk) : List Int := joinAll (cs.map rawC)

/-- A numeric `ChunkedArray`: sortedness flag and chunks. -/
structure NumSeq where
  flag : IsSorted
  chunks : List NumChunk

/-- `ca.len()`. -/
def NumSeq.len (s : NumSeq) : Nat := (s.chunks.map List.length).sum

/-- `ca.null_count()`. -/
def NumSeq.nullCount (s : NumSeq) : Nat := (s.chunks.map countInvalid).sum

/-- Modelled from the spec: `ChunkedArray::cont_slice` (polars-core, outside
this source file) succeeds exactly when the array is a single chunk without
nulls, yielding that chunk's raw value slice. -/
def contSlice (s : NumSeq) : Option (List Int) :=
  match s.chunks with
  | [c] => if countInvalid c = 0 then some (rawC c) else none
  | _ => none

/-- The loop body of the cross-chunk fold in `arg_min_numeric`
(`o = intOrd`, replacement test `chunk_min_val < acc_min_val`) and
`arg_max_numeric` (`o = intOrd.flip`, whose `lt cv bv` is literally
`chunk_max_val > acc_max_val`): skip empty chunks, compute the chunk's local
extremum index/value from its raw slice via the vectorized primitive
(`argminL o`, with `arr.value idx` read as `getD`), replace the running best
only on a strict comparison, and always advance the offset by the chunk's
length.  The final catch-all arm renders the source's `unreachable!()`
(mixed `Some`/`None` accumulators never occur). -/
def chunkStep (o : StrictOrder Int) (acc : Option Nat × Option Int × Nat)
    (c : NumChunk) : Option Nat × Option Int × Nat :=
  if c.isEmpty then acc
  else
    let vals := rawC c
    let ci := argminL o vals
    let cv := vals.getD ci 0
    match acc with
    | (none, none, off) => (some (ci + off), some cv, off + c.length)
    | (some bi, some bv, off) =>
      if o.lt cv bv then (some (ci + off), some cv, off + c.length)
      else (some bi, some bv, off + c.length)
    | (_, _, _) => acc

/-- `arg_min_numeric`: sortedness fast path, then the cross-chunk fold. -/
def arg_min_numeric (s : NumSeq) : Option Nat :=
  match s.flag with
  | IsSorted.Ascending => some 0
  | IsSorted.Descending => some (usizeSub1 s.len)
  | IsSorted.Not => (List.foldl (chunkStep intOrd) (none, none, 0) s.chunks).1

/-- `arg_max_numeric`. -/
def arg_max_numeric (s : NumSeq) : Option Nat :=
  match s.flag with
  | IsSorted.Ascending => some (usizeSub1 s.len)
  | IsSorted.Descending => some 0
  | IsSorted.Not => (List.foldl (chunkStep intOrd.flip) (none, none, 0) s.chunks).1

/-- `arg_min_numeric_slice` (the `vals.argmin()` call assumes a non-empty
slice; every call site is guarded by the `is_empty` check). -/
def arg_min_numeric_slice (vals : List Int) (is_sorted : IsSorted) : Option Nat :=
  match is_sorted with
  | IsSorted.Ascending => some 0
  | IsSorted.Descending => some (usizeSub1 vals.length)
  | IsSorted.Not => some (argminL intOrd vals)

/-- `arg_max_numeric_slice`. -/
def arg_max_numeric_slice (vals : List Int) (is_sorted : IsSorted) : Option Nat :=
  match is_sorted with
  | IsSorted.Ascending => some (usizeSub1 vals.length)
  | IsSorted.Descending => some 0
  | IsSorted.Not => some (argminL intOrd.flip vals)

/-- The numeric arm of `ArgAgg::arg_min` for `Series`: empty check
(`because argminmax assumes not empty`), then `cont_slice` dispatch. -/
def arg_min_num (s : NumSeq) : Option Nat :=
  if s.len = 0 then none
  else
    match contSlice s with
    | some vals => arg_min_numeric_slice vals s.flag
    | none => arg_min_numeric s

/-- The numeric arm of `ArgAgg::arg_max` for `Series`. -/
def arg_max_num (s : NumSeq) : Option Nat :=
  if s.len = 0 then none
  else
    match contSlice s with
    | some vals => arg_max_numeric_slice vals s.flag
    | none => arg_max_numeric s

/-- A `Utf8Chunked` array: sortedness flag and the validity-aware element
sequence (`ca.into_iter()` yields one `Option<&str>` per logical position;
chunk boundaries are invisible to the text reducer). -/
structure StrSeq where
  flag : IsSorted
  elems : List (Option ByteStr)

/-- `ca.len()`. -/
def StrSeq.len (s : StrSeq) : Nat := s.elems.length

/-- `arg_min_str`: the replacement test is the source's `acc.1 > val`,
i.e. `optStrLt val acc_val`. -/
def arg_min_str (s : StrSeq) : Option Nat :=
  match s.flag with
  | IsSorted.Ascending => some 0
  | IsSorted.Descending => some (usizeSub1 s.len)
  | IsSorted.Not =>
    match s.elems.enum with
    | [] => none
    | p :: ps =>
      some ((List.foldl (fun acc q => if optStrOrd.lt q.2 acc.2 then q else acc) p ps).1)

/-- `arg_max_str`: the replacement test is the source's `acc.1 < val`,
i.e. `optStrLt acc_val val`, which is `optStrOrd.flip.lt val acc_val`. -/
def arg_max_str (s : StrSeq) : Option Nat :=
  match s.flag with
  | IsSorted.Ascending => some (usizeSub1 s.len)
  | IsSorted.Descending => some 0
  | IsSorted.Not =>
    match s.elems.enum with
    | [] => none
    | p :: ps =>
      some ((List.foldl (fun acc q => if optStrOrd.flip.lt q.2 acc.2 then q else acc) p ps).1)

theorem pos?_eq_none_iff (p : α → Bool) (l : List α) :
    pos? p l = none ↔ ∀ x ∈ l, p x = false := by
  induction l with
  | nil => simp [pos?]
  | cons x xs ih =>
    by_cases h : p x = true
    · simp [pos?, h]
    · simp only [Bool.not_eq_true] at h
      simp [pos?, h, ih, Option.map_eq_none]

theorem pos?_isSome_of_mem (p : α → Bool) (l : List α) (x : α)
    (hx : x ∈ l) (hp : p x = true) : (pos? p l).isSome := by
  rw [Option.isSome_iff_ne_none]
  intro hnone
  rw [pos?_eq_none_iff] at hnone
  rw [hnone x hx] at hp
  exact Bool.false_ne_true hp

theorem pos?_lt_length (p : α → Bool) (l : List α) (i : Nat)
    (h : pos? p l = some i) : i < l.length := by
  induction l generalizing i with
  | nil => simp [pos?] at h
  | cons x xs ih =>
    simp only [pos?] at h
    split at h
    · injection h with h2
      simp only [List.length_cons]
      omega
    · simp only [Option.map_eq_some'] at h
      obtain ⟨j, hj, rfl⟩ := h
      have := ih j hj
      simp only [List.length_cons]
      omega

theorem pos?_append (p : α → Bool) (l₁ l₂ : List α) :
    pos? p (l₁ ++ l₂) =
      match pos? p l₁ with
      | some i => some i
      | none => (pos? p l₂).map (l₁.length + ·) := by
  induction l₁ with
  | nil => simp [pos?]
  | cons x xs ih =>
    by_cases hx : p x = true
    · simp [pos?, hx]
    · simp only [Bool.not_eq_true] at hx
      simp only [List.cons_append, pos?, hx, Bool.false_eq_true, if_false,
        List.append_eq]
      rw [ih]
      cases h1 : pos? p xs with
      | some i => rfl
      | none =>
        cases h2 : pos? p l₂ with
        | none => rfl
        | some j =>
          simp only [Option.map_none', Option.map_some', List.length_cons,
            Option.some.injEq]
          omega

theorem pos?_map (p : β → Bool) (f : α → β) (l : List α) :
    pos? p (l.map f) = pos? (fun x => p (f x)) l := by
  induction l with
  | nil => rfl
  | cons x xs ih => simp [pos?, ih]

theorem pos?_congr (p q : α → Bool) (l : List α)
    (h : ∀ x ∈ l, p x = q x) : pos? p l = pos? q l := by
  induction l with
  | nil => rfl
  | cons x xs ih =>
    simp only [pos?]
    rw [h x (by simp), ih (fun y hy => h y (by simp [hy]))]

theorem joinAll_length (ls : List (List α)) :
    (joinAll ls).length = (ls.map List.length).sum := by
  induction ls with
  | nil => rfl
  | cons l ls ih => simp [joinAll, ih]

theorem unset_bits_cons_false (bs : List Bool) :
    unset_bits (false :: bs) = unset_bits bs + 1 := by
  simp [unset_bits, List.filter_cons]

theorem unset_bits_cons_true (bs : List Bool) :
    unset_bits (true :: bs) = unset_bits bs := by
  simp [unset_bits, List.filter_cons]

theorem unset_bits_eq_zero_iff (mask : List Bool) :
    unset_bits mask = 0 ↔ false ∉ mask := by
  induction mask with
  | nil => simp [unset_bits]
  | cons b bs ih =>
    cases b
    · rw [unset_bits_cons_false]
      constructor
      · intro h
        exact absurd h (by omega)
      · intro h
        exact absurd (List.mem_cons_self _ _) h
    · rw [unset_bits_cons_true]
      simpa using ih

theorem unset_bits_eq_length_iff (mask : List Bool) :
    unset_bits mask = mask.length ↔ true ∉ mask := by
  induction mask with
  | nil => simp [unset_bits]
  | cons b bs ih =>
    have hle : unset_bits bs ≤ bs.length := List.length_filter_le _ _
    cases b
    · rw [unset_bits_cons_false]
      simp only [List.length_cons, List.mem_cons]
      constructor
      · intro h hmem
        rcases hmem with h1 | h1
        · exact Bool.noConfusion h1
        · exact (ih.mp (by omega)) h1
      · intro h
        have h2 : true ∉ bs := fun hm => h (Or.inr hm)
        have := ih.mpr h2
        omega
    · rw [unset_bits_cons_true]
      simp only [List.length_cons, List.mem_cons]
      constructor
      · intro h
        exact absurd h (by omega)
      · intro h
        simp at h

theorem listMin?_eq_none_iff (o : StrictOrder α) (l : List α) :
    listMin? o l = none ↔ l = [] := by
  cases l with
  | nil => simp [listMin?]
  | cons x xs => simp [listMin?]

theorem minB_assoc (o : StrictOrder α) (a b c : α) :
    minB o a (minB o b c) = minB o (minB o a b) c := by
  simp only [minB]
  cases h1 : o.lt c b <;> cases h2 : o.lt b a
  · simp [h1, h2, o.nlt_trans c b a h1 h2]
  · simp [h1, h2]
  · simp [h1, h2]
  · simp [h1, h2, o.lt_trans c b a h1 h2]

theorem listMin?_append (o : StrictOrder α) (l₁ l₂ : List α) :
    listMin? o (l₁ ++ l₂) =
      match listMin? o l₁, listMin? o l₂ with
      | none, m => m
      | some m, none => some m
      | some m₁, some m₂ => some (minB o m₁ m₂) := by
  induction l₁ with
  | nil =>
    simp only [List.nil_append, listMin?]
  | cons x xs ih =>
    cases h1 : listMin? o xs with
    | none =>
      cases h2 : listMin? o l₂ with
      | none => simp only [List.cons_append, List.append_eq, listMin?, ih, h1, h2]
      | some m2 => simp only [List.cons_append, List.append_eq, listMin?, ih, h1, h2]
    | some m1 =>
      cases h2 : listMin? o l₂ with
      | none => simp only [List.cons_append, List.append_eq, listMin?, ih, h1, h2]
      | some m2 =>
        simp only [List.cons_append, List.append_eq, listMin?, ih, h1, h2,
          Option.some.injEq]
        exact minB_assoc o x m1 m2

theorem argminL_lt_length (o : StrictOrder α) (l : List α) (h : l ≠ []) :
    argminL o l < l.length := by
  induction l with
  | nil => exact absurd rfl h
  | cons x xs ih =>
    simp only [argminL, List.length_cons]
    cases h1 : listMin? o xs with
    | none => simp
    | some m =>
      cases h2 : o.lt m x
      · simp [h2]
      · have hxs : xs ≠ [] := by
          intro he
          rw [he] at h1
          simp [listMin?] at h1
        have := ih hxs
        simp only [h2, if_true]
        omega

theorem getD_argminL (o : StrictOrder α) (l : List α) (m : α) (d : α)
    (h : listMin? o l = some m) : l.getD (argminL o l) d = m := by
  induction l generalizing m with
  | nil => simp [listMin?] at h
  | cons x xs ih =>
    simp only [listMin?, Option.some.injEq] at h
    cases h1 : listMin? o xs with
    | none =>
      rw [h1] at h
      simp only [argminL, h1, List.getD_cons_zero]
      exact h
    | some mx =>
      rw [h1] at h
      simp only [argminL, h1]
      cases h2 : o.lt mx x
      · simp only [minB, h2, Bool.false_eq_true, if_false] at h
        simp [h2, ← h]
      · simp only [minB, h2, if_true] at h
        simp only [h2, if_true, List.getD_cons_succ]
        rw [ih mx h1]
        exact h

theorem argminL_append (o : StrictOrder α) (l₁ l₂ : List α) :
    argminL o (l₁ ++ l₂) =
      match listMin? o l₁, listMin? o l₂ with
      | none, _ => argminL o l₂
      | some _, none => argminL o l₁
      | some m₁, some m₂ =>
        if o.lt m₂ m₁ then l₁.length + argminL o l₂ else argminL o l₁ := by
  induction l₁ with
  | nil =>
    simp only [List.nil_append, listMin?]
  | cons x xs ih =>
    have hmin := listMin?_append o xs l₂
    cases h1 : listMin? o xs with
    | none =>
      have hxs : xs = [] := (listMin?_eq_none_iff o xs).mp h1
      subst hxs
      cases h2 : listMin? o l₂ with
      | none =>
        have hl2 : l₂ = [] := (listMin?_eq_none_iff o l₂).mp h2
        subst hl2
        simp [argminL, listMin?]
      | some m2 =>
        simp only [List.cons_append, List.append_eq, List.nil_append, argminL,
          listMin?, h2]
        cases h3 : o.lt m2 x <;> simp [h3] <;> omega
    | some m1 =>
      rw [h1] at hmin
      cases h2 : listMin? o l₂ with
      | none =>
        rw [h2] at hmin
        simp only [List.cons_append, List.append_eq, argminL, listMin?, h1, h2,
          hmin, ih]
      | some m2 =>
        rw [h2] at hmin
        simp only [h1, h2] at ih
        simp only [List.cons_append, List.append_eq, argminL, listMin?, h1, h2,
          hmin, ih]
        cases h3 : o.lt m2 m1 <;> cases h4 : o.lt m1 x
        · have h5 := o.nlt_trans m2 m1 x h3 h4
          simp [minB, h3, h4, h5]
        · simp [minB, h3, h4]
        · cases h5 : o.lt m2 x <;> simp [minB, h3, h4, h5, List.length_cons] <;> omega
        · have h5 := o.lt_trans m2 m1 x h3 h4
          simp [minB, h3, h4, h5, List.length_cons]
          omega

theorem pos?_exists_of_some (p : α → Bool) (l : List α) (i : Nat)
    (h : pos? p l = some i) : ∃ x ∈ l, p x = true := by
  induction l generalizing i with
  | nil => simp [pos?] at h
  | cons x xs ih =>
    by_cases hx : p x = true
    · exact ⟨x, by simp, hx⟩
    · simp only [Bool.not_eq_true] at hx
      simp only [pos?, hx, Bool.false_eq_true, if_false, Option.map_eq_some'] at h
      obtain ⟨j, hj, _⟩ := h
      obtain ⟨y, hy, hpy⟩ := ih j hj
      exact ⟨y, by simp [hy], hpy⟩

theorem scanWords_eq (p : Bool → Bool) :
    ∀ (n : Nat) (bits : List Bool) (total i : Nat),
      64 * n ≤ bits.length → pos? p bits = some i →
      scanWords p n bits total = total + i := by
  intro n
  induction n with
  | zero =>
    intro bits total i _ h
    simp [scanWords, h]
  | succ n ih =>
    intro bits total i hlen h
    have htake : (bits.take 64).length = 64 := by
      rw [List.length_take]
      omega
    have happ := pos?_append p (bits.take 64) (bits.drop 64)
    rw [List.take_append_drop] at happ
    cases hq : pos? p (bits.take 64) with
    | some q =>
      rw [hq] at happ
      rw [h] at happ
      injection happ with hiq
      simp [scanWords, hq, hiq]
    | none =>
      rw [hq, htake] at happ
      rw [h] at happ
      have hj : ∃ j, pos? p (bits.drop 64) = some j ∧ 64 + j = i := by
        cases hd : pos? p (bits.drop 64) with
        | none => rw [hd] at happ; simp at happ
        | some j => rw [hd] at happ; simp at happ; exact ⟨j, rfl, happ.symm⟩
      obtain ⟨j, hd, hij⟩ := hj
      have hlen2 : 64 * n ≤ (bits.drop 64).length := by
        rw [List.length_drop]
        omega
      simp only [scanWords, hq]
      rw [ih (bits.drop 64) (total + 64) j hlen2 hd]
      omega

theorem scanLoop_eq (p : Bool → Bool) (bits : List Bool) (i : Nat)
    (h : pos? p bits = some i) : scanLoop p bits = i := by
  have hlen : 64 * (bits.length / 64) ≤ bits.length := by omega
  unfold scanLoop
  rw [scanWords_eq p (bits.length / 64) bits 0 i hlen h]
  omega

theorem first_set_bit_eq (mask : List Bool) (i : Nat)
    (ht : pos? (fun v => v) mask = some i) (hf : false ∈ mask) :
    first_set_bit mask = i := by
  have h1 : unset_bits mask ≠ 0 := by
    rw [Ne, unset_bits_eq_zero_iff]
    simpa using hf
  have h2 : unset_bits mask ≠ mask.length := by
    intro hcon
    have hnotin := (unset_bits_eq_length_iff mask).mp hcon
    obtain ⟨x, hx, hpx⟩ := pos?_exists_of_some _ _ _ ht
    exact hnotin (hpx ▸ hx)
  unfold first_set_bit
  rw [if_neg (by simp [h1, h2])]
  exact scanLoop_eq _ _ _ ht

theorem first_unset_bit_eq (mask : List Bool) (i : Nat)
    (hf : pos? (fun v => !v) mask = some i) (ht : true ∈ mask) :
    first_unset_bit mask = i := by
  have h1 : unset_bits mask ≠ 0 := by
    intro hcon
    have hnotin := (unset_bits_eq_zero_iff mask).mp hcon
    obtain ⟨x, hx, hpx⟩ := pos?_exists_of_some _ _ _ hf
    have hxf : x = false := by
      cases x
      · rfl
      · simp at hpx
    exact hnotin (hxf ▸ hx)
  have h2 : unset_bits mask ≠ mask.length := by
    rw [Ne, unset_bits_eq_length_iff]
    simpa using ht
  unfold first_unset_bit
  rw [if_neg (by simp [h1, h2])]
  exact scanLoop_eq _ _ _ hf

theorem first_set_bit_lt (mask : List Bool) (h : mask ≠ []) :
    first_set_bit mask < mask.length := by
  have hpos : 0 < mask.length := List.length_pos.mpr h
  unfold first_set_bit
  split
  · exact hpos
  · rename_i hguard
    push_neg at hguard
    have ht : true ∈ mask := by
      by_contra hnot
      exact hguard.2 ((unset_bits_eq_length_iff mask).mpr hnot)
    obtain ⟨i, hi⟩ :=
      Option.isSome_iff_exists.mp (pos?_isSome_of_mem (fun v => v) mask true ht rfl)
    rw [scanLoop_eq _ _ _ hi]
    exact pos?_lt_length _ _ _ hi

theorem first_unset_bit_lt (mask : List Bool) (h : mask ≠ []) :
    first_unset_bit mask < mask.length := by
  have hpos : 0 < mask.length := List.length_pos.mpr h
  unfold first_unset_bit
  split
  · exact hpos
  · rename_i hguard
    push_neg at hguard
    have hfm : false ∈ mask := by
      by_contra hnot
      exact hguard.1 ((unset_bits_eq_zero_iff mask).mpr hnot)
    obtain ⟨i, hi⟩ :=
      Option.isSome_iff_exists.mp (pos?_isSome_of_mem (fun v => !v) mask false hfm rfl)
    rw [scanLoop_eq _ _ _ hi]
    exact pos?_lt_length _ _ _ hi

/-- The running-best merge the cross-chunk fold performs over one more block
of values: replace the running (index, value) pair only when the block's
minimum is strictly smaller. -/
def mergeMin (o : StrictOrder α) (bi : Nat) (bv : α) (off : Nat) (l : List α) :
    Nat × α :=
  match listMin? o l with
  | none => (bi, bv)
  | some m => if o.lt m bv then (off + argminL o l, m) else (bi, bv)

theorem mergeMin_append (o : StrictOrder α) (bi : Nat) (bv : α) (off : Nat)
    (l₁ l₂ : List α) :
    mergeMin o bi bv off (l₁ ++ l₂) =
      mergeMin o (mergeMin o bi bv off l₁).1 (mergeMin o bi bv off l₁).2
        (off + l₁.length) l₂ := by
  simp only [mergeMin]
  rw [listMin?_append, argminL_append]
  cases h1 : listMin? o l₁ with
  | none =>
    have he : l₁ = [] := (listMin?_eq_none_iff o l₁).mp h1
    subst he
    cases h2 : listMin? o l₂ with
    | none => simp
    | some m2 =>
      cases hlt : o.lt m2 bv <;> simp [hlt]
  | some m1 =>
    cases h2 : listMin? o l₂ with
    | none =>
      have he : l₂ = [] := (listMin?_eq_none_iff o l₂).mp h2
      subst he
      cases hlt1 : o.lt m1 bv <;> simp [hlt1, listMin?]
    | some m2 =>
      cases hlt1 : o.lt m1 bv <;> cases h3 : o.lt m2 m1
      · have h4 := o.nlt_trans m2 m1 bv h3 hlt1
        simp [minB, hlt1, h3, h4]
      · cases h5 : o.lt m2 bv <;> simp [minB, hlt1, h3, h5] <;>
          exact (Nat.add_assoc _ _ _).symm
      · simp [minB, hlt1, h3]
      · have h4 := o.lt_trans m2 m1 bv h3 hlt1
        simp [minB, hlt1, h3, h4]
        exact (Nat.add_assoc _ _ _).symm

theorem mergeMin_first (o : StrictOrder α) (l₁ l₂ : List α) (m1 : α) (off : Nat)
    (h1 : listMin? o l₁ = some m1) :
    (some ((mergeMin o (off + argminL o l₁) m1 (off + l₁.length) l₂).1),
     some ((mergeMin o (off + argminL o l₁) m1 (off + l₁.length) l₂).2)) =
      ((some (off + argminL o (l₁ ++ l₂)) : Option Nat),
       listMin? o (l₁ ++ l₂)) := by
  simp only [mergeMin]
  rw [listMin?_append, argminL_append, h1]
  cases h2 : listMin? o l₂ with
  | none => simp
  | some m2 =>
    cases h3 : o.lt m2 m1 <;> simp [minB, h3] <;>
      exact Nat.add_assoc _ _ _

theorem rawC_length (c : NumChunk) : (rawC c).length = c.length :=
  List.length_map c Prod.fst

theorem rawJoin_cons (c : NumChunk) (cs : List NumChunk) :
    rawJoin (c :: cs) = rawC c ++ rawJoin cs := rfl

theorem chunkFold_some (o : StrictOrder Int) :
    ∀ (cs : List NumChunk) (bi : Nat) (bv : Int) (off : Nat),
      List.foldl (chunkStep o) (some bi, some bv, off) cs =
        (some (mergeMin o bi bv off (rawJoin cs)).1,
         some (mergeMin o bi bv off (rawJoin cs)).2,
         off + (rawJoin cs).length) := by
  intro cs
  induction cs with
  | nil =>
    intro bi bv off
    simp [rawJoin, joinAll, mergeMin, listMin?]
  | cons c cs ih =>
    intro bi bv off
    simp only [List.foldl_cons]
    by_cases hc : c = []
    · subst hc
      have hskip : chunkStep o (some bi, some bv, off) ([] : NumChunk) =
          (some bi, some bv, off) := rfl
      rw [hskip, ih]
      simp [rawJoin_cons, rawC]
    · have hne : rawC c ≠ [] := by simp [rawC, hc]
      obtain ⟨mc, hmc⟩ : ∃ m, listMin? o (rawC c) = some m := by
        cases hm : listMin? o (rawC c) with
        | none => exact absurd ((listMin?_eq_none_iff o _).mp hm) hne
        | some m => exact ⟨m, rfl⟩
      have hcempty : c.isEmpty = false := by
        cases c
        · exact absurd rfl hc
        · rfl
      have hcv : (rawC c).getD (argminL o (rawC c)) 0 = mc := getD_argminL o _ mc 0 hmc
      have hrw : mergeMin o bi bv off (rawC c) =
          if o.lt mc bv then (off + argminL o (rawC c), mc) else (bi, bv) := by
        simp only [mergeMin, hmc]
      have hstep : chunkStep o (some bi, some bv, off) c =
          (some (mergeMin o bi bv off (rawC c)).1,
           some (mergeMin o bi bv off (rawC c)).2,
           off + c.length) := by
        rw [hrw]
        cases hlt : o.lt mc bv
        · simp only [Bool.false_eq_true, if_false]
          simp only [chunkStep, hcempty, Bool.false_eq_true, if_false]
          rw [hcv]
          simp [hlt]
        · simp only [if_true]
          simp only [chunkStep, hcempty, Bool.false_eq_true, if_false]
          rw [hcv]
          simp [hlt]
          omega
      rw [hstep, ih, rawJoin_cons, mergeMin_append, rawC_length]
      simp only [List.length_append, rawC_length, Prod.mk.injEq]
      exact ⟨trivial, trivial, Nat.add_assoc _ _ _⟩

theorem chunkFold_none (o : StrictOrder Int) :
    ∀ (cs : List NumChunk) (off : Nat),
      List.foldl (chunkStep o) (none, none, off) cs =
        ((listMin? o (rawJoin cs)).map (fun _ => off + argminL o (rawJoin cs)),
         listMin? o (rawJoin cs),
         off + (rawJoin cs).length) := by
  intro cs
  induction cs with
  | nil =>
    intro off
    simp [rawJoin, joinAll, listMin?]
  | cons c cs ih =>
    intro off
    simp only [List.foldl_cons]
    by_cases hc : c = []
    · subst hc
      have hskip : chunkStep o (none, none, off) ([] : NumChunk) = (none, none, off) := rfl
      rw [hskip, ih]
      simp [rawJoin_cons, rawC]
    · have hne : rawC c ≠ [] := by simp [rawC, hc]
      obtain ⟨mc, hmc⟩ : ∃ m, listMin? o (rawC c) = some m := by
        cases hm : listMin? o (rawC c) with
        | none => exact absurd ((listMin?_eq_none_iff o _).mp hm) hne
        | some m => exact ⟨m, rfl⟩
      have hcempty : c.isEmpty = false := by
        cases c
        · exact absurd rfl hc
        · rfl
      have hcv : (rawC c).getD (argminL o (rawC c)) 0 = mc := getD_argminL o _ mc 0 hmc
      have hstep : chunkStep o (none, none, off) c =
          (some (argminL o (rawC c) + off), some mc, off + c.length) := by
        simp only [chunkStep, hcempty, Bool.false_eq_true, if_false]
        rw [hcv]
      rw [hstep, chunkFold_some, rawJoin_cons]
      have hfirst := mergeMin_first o (rawC c) (rawJoin cs) mc off hmc
      have h1 := congrArg Prod.fst hfirst
      have h2 := congrArg Prod.snd hfirst
      simp only at h1 h2
      rw [Nat.add_comm (argminL o (rawC c)) off] at *
      rw [rawC_length] at h1 h2
      rw [h1, h2]
      have hmin : ∃ mm, listMin? o (rawC c ++ rawJoin cs) = some mm := by
        cases hm : listMin? o (rawC c ++ rawJoin cs) with
        | none =>
          have := (listMin?_eq_none_iff o _).mp hm
          rw [List.append_eq_nil] at this
          exact absurd this.1 hne
        | some m => exact ⟨m, rfl⟩
      obtain ⟨mm, hmm⟩ := hmin
      rw [hmm]
      simp only [Option.map_some', List.length_append, rawC_length, Prod.mk.injEq]
      exact ⟨trivial, trivial, Nat.add_assoc _ _ _⟩

theorem chunkFold_result (o : StrictOrder Int) (cs : List NumChunk) :
    (List.foldl (chunkStep o) (none, none, 0) cs).1 =
      if rawJoin cs = [] then none else some (argminL o (rawJoin cs)) := by
  rw [chunkFold_none]
  cases h : listMin? o (rawJoin cs) with
  | none =>
    rw [if_pos ((listMin?_eq_none_iff o _).mp h)]
    rfl
  | some m =>
    have hne : rawJoin cs ≠ [] := by
      intro he
      rw [(listMin?_eq_none_iff o _).mpr he] at h
      exact Option.noConfusion h
    rw [if_neg hne]
    simp

theorem foldl_pairMin (o : StrictOrder α) :
    ∀ (xs : List α) (k : Nat) (b : Nat × α),
      List.foldl (fun acc q => if o.lt q.2 acc.2 then q else acc) b
          (List.enumFrom k xs) =
        mergeMin o b.1 b.2 k xs := by
  intro xs
  induction xs with
  | nil =>
    intro k b
    simp [List.enumFrom, mergeMin, listMin?]
  | cons x xs ih =>
    intro k b
    rw [List.enumFrom_cons]
    simp only [List.foldl_cons]
    rw [ih]
    simp only [mergeMin, listMin?]
    cases h1 : listMin? o xs with
    | none =>
      have hxs : xs = [] := (listMin?_eq_none_iff o xs).mp h1
      subst hxs
      cases hlt : o.lt x b.2 <;> simp [hlt, argminL, listMin?]
    | some m =>
      cases hlt : o.lt x b.2 <;> cases h3 : o.lt m x
      · have h4 := o.nlt_trans m x b.2 h3 hlt
        simp [minB, argminL, h1, hlt, h3, h4]
      · cases h5 : o.lt m b.2 <;> simp [minB, argminL, h1, hlt, h3, h5] <;> omega
      · simp [minB, argminL, h1, hlt, h3]
      · have h4 := o.lt_trans m x b.2 h3 hlt
        simp [minB, argminL, h1, hlt, h3, h4]
        omega

theorem arg_min_str_not (s : StrSeq) (h : s.flag = IsSorted.Not) :
    arg_min_str s =
      if s.elems = [] then none else some (argminL optStrOrd s.elems) := by
  unfold arg_min_str
  rw [h]
  cases he : s.elems with
  | nil => simp [List.enum]
  | cons e rest =>
    simp only [List.enum_cons]
    rw [foldl_pairMin]
    rw [if_neg (by simp)]
    simp only [mergeMin, argminL, listMin?]
    cases h1 : listMin? optStrOrd rest with
    | none => simp
    | some m => cases h3 : optStrOrd.lt m e <;> simp [h3] <;> omega

theorem arg_max_str_not (s : StrSeq) (h : s.flag = IsSorted.Not) :
    arg_max_str s =
      if s.elems = [] then none else some (argminL optStrOrd.flip s.elems) := by
  unfold arg_max_str
  rw [h]
  cases he : s.elems with
  | nil => simp [List.enum]
  | cons e rest =>
    simp only [List.enum_cons]
    rw [foldl_pairMin]
    rw [if_neg (by simp)]
    simp only [mergeMin, argminL, listMin?]
    cases h1 : listMin? optStrOrd.flip rest with
    | none => simp
    | some m => cases h3 : optStrOrd.flip.lt m e <;> simp [h3] <;> omega

theorem rawJoin_length (cs : List NumChunk) :
    (rawJoin cs).length = (cs.map List.length).sum := by
  induction cs with
  | nil => rfl
  | cons c cs ih =>
    rw [rawJoin_cons]
    simp [List.length_append, ih, rawC_length]

theorem NumSeq.len_eq (s : NumSeq) : s.len = (rawJoin s.chunks).length :=
  (rawJoin_length s.chunks).symm

theorem NumSeq.len_zero_iff (s : NumSeq) : s.len = 0 ↔ rawJoin s.chunks = [] := by
  rw [NumSeq.len_eq, List.length_eq_zero]

theorem contSlice_some (s : NumSeq) (vals : List Int) (h : contSlice s = some vals) :
    ∃ c, s.chunks = [c] ∧ countInvalid c = 0 ∧ vals = rawC c := by
  cases hs : s.chunks with
  | nil =>
    have hcs : contSlice s = none := by
      unfold contSlice
      rw [hs]
    rw [hcs] at h
    exact Option.noConfusion h
  | cons c rest =>
    cases rest with
    | nil =>
      have hcs : contSlice s = if countInvalid c = 0 then some (rawC c) else none := by
        unfold contSlice
        rw [hs]
      rw [hcs] at h
      split at h
      · rename_i hcount
        injection h with hv
        exact ⟨c, rfl, hcount, hv.symm⟩
      · exact Option.noConfusion h
    | cons c2 rest2 =>
      have hcs : contSlice s = none := by
        unfold contSlice
        rw [hs]
      rw [hcs] at h
      exact Option.noConfusion h

theorem contSlice_some_len (s : NumSeq) (vals : List Int)
    (h : contSlice s = some vals) : vals.length = s.len := by
  obtain ⟨c, hc, _, hv⟩ := contSlice_some s vals h
  subst hv
  rw [rawC_length]
  unfold NumSeq.len
  rw [hc]
  simp

theorem BoolSeq.elems_length (s : BoolSeq) : s.elems.length = s.len := by
  unfold BoolSeq.elems seqElems BoolSeq.len
  rw [joinAll_length]
  congr 1
  rw [List.map_map]
  exact List.map_congr_left (fun c _ => List.length_map c _)

theorem elems_of_valid_chunk (c : BoolChunk) (h : countInvalid c = 0) :
    c.map (fun p => if p.2 then some p.1 else none) = (c.map Prod.fst).map some := by
  induction c with
  | nil => rfl
  | cons p ps ih =>
    cases hp : p.2
    · exfalso
      simp [countInvalid, List.filter_cons, hp] at h
    · have hh : countInvalid ps = 0 := by
        simpa [countInvalid, List.filter_cons, hp] using h
      simp [hp, ih hh]

theorem BoolSeq.elems_single_valid (s : BoolSeq) (c : BoolChunk)
    (hc : s.chunks = [c]) (hn : s.nullCount = 0) :
    s.elems = (boolValues s).map some := by
  have hcn : countInvalid c = 0 := by
    unfold BoolSeq.nullCount at hn
    rw [hc] at hn
    simpa using hn
  unfold BoolSeq.elems seqElems boolValues
  rw [hc]
  simp only [List.map_cons, List.map_nil, List.headD_cons, joinAll, List.append_nil]
  exact elems_of_valid_chunk c hcn

theorem allSpec_false_iff (s : BoolSeq) :
    s.allSpec = false ↔ some false ∈ s.elems := by
  unfold BoolSeq.allSpec
  rw [List.all_eq_false]
  constructor
  · rintro ⟨o, ho, hno⟩
    have : o = some false := by
      simpa using hno
    exact this ▸ ho
  · intro hm
    exact ⟨some false, hm, by simp⟩

theorem usizeSub1_eq (n : Nat) (h1 : 1 ≤ n) (h2 : n < usizeSize) :
    usizeSub1 n = n - 1 := by
  simp only [usizeSub1, usizeSize] at *
  omega

theorem usizeSub1_zero : usizeSub1 0 = usizeSize - 1 := by
  simp only [usizeSub1, usizeSize]

theorem rawJoin_single (c : NumChunk) : rawJoin [c] = rawC c := by
  simp [rawJoin, joinAll]

theorem boolValues_length_single (s : BoolSeq) (c : BoolChunk)
    (hc : s.chunks = [c]) : (boolValues s).length = s.len := by
  unfold boolValues BoolSeq.len
  rw [hc]
  simp

theorem arg_min_num_not_empty (s : NumSeq) (h : s.len ≠ 0) :
    arg_min_num s =
      match s.flag with
      | IsSorted.Ascending => some 0
      | IsSorted.Descending => some (usizeSub1 s.len)
      | IsSorted.Not => some (argminL intOrd (rawJoin s.chunks)) := by
  unfold arg_min_num
  rw [if_neg h]
  cases hcs : contSlice s with
  | some vals =>
    obtain ⟨c, hc, hcount, hv⟩ := contSlice_some s vals hcs
    have hlen : vals.length = s.len := contSlice_some_len s vals hcs
    have hraw : rawJoin s.chunks = vals := by
      rw [hc, hv, rawJoin_single]
    unfold arg_min_numeric_slice
    cases s.flag <;> simp [hlen, hraw]
  | none =>
    unfold arg_min_numeric
    cases hf : s.flag with
    | Ascending => rfl
    | Descending => rfl
    | Not =>
      rw [chunkFold_result]
      rw [if_neg (fun he => h ((NumSeq.len_zero_iff s).mpr he))]

theorem arg_max_num_not_empty (s : NumSeq) (h : s.len ≠ 0) :
    arg_max_num s =
      match s.flag with
      | IsSorted.Ascending => some (usizeSub1 s.len)
      | IsSorted.Descending => some 0
      | IsSorted.Not => some (argminL intOrd.flip (rawJoin s.chunks)) := by
  unfold arg_max_num
  rw [if_neg h]
  cases hcs : contSlice s with
  | some vals =>
    obtain ⟨c, hc, hcount, hv⟩ := contSlice_some s vals hcs
    have hlen : vals.length = s.len := contSlice_some_len s vals hcs
    have hraw : rawJoin s.chunks = vals := by
      rw [hc, hv, rawJoin_single]
    unfold arg_max_numeric_slice
    cases s.flag <;> simp [hlen, hraw]
  | none =>
    unfold arg_max_numeric
    cases hf : s.flag with
    | Ascending => rfl
    | Descending => rfl
    | Not =>
      rw [chunkFold_result]
      rw [if_neg (fun he => h ((NumSeq.len_zero_iff s).mpr he))]

/-- Claim C5: for a numeric sequence with Unknown sortedness that is not one
contiguous null-free slice, the result is the cross-chunk fold (left-to-right,
skipping empty chunks, local extremum of each chunk's raw slice via the
vectorized primitive, strict-comparison replacement keeping earlier chunks on
ties, offset advanced by every chunk's length), whose final value is the
first-occurrence extremum index of the concatenated raw value slices (null
positions included). -/
theorem claim_C5 (s : NumSeq) (hf : s.flag = IsSorted.Not)
    (hc : contSlice s = none) :
    arg_min_num s = (List.foldl (chunkStep intOrd) (none, none, 0) s.chunks).1 ∧
    arg_max_num s = (List.foldl (chunkStep intOrd.flip) (none, none, 0) s.chunks).1 ∧
    (List.foldl (chunkStep intOrd) (none, none, 0) s.chunks).1 =
      (if rawJoin s.chunks = [] then none
       else some (argminL intOrd (rawJoin s.chunks))) ∧
    (List.foldl (chunkStep intOrd.flip) (none, none, 0) s.chunks).1 =
      (if rawJoin s.chunks = [] then none
       else some (argminL intOrd.flip (rawJoin s.chunks))) := by
  refine ⟨?_, ?_, chunkFold_result intOrd s.chunks, chunkFold_result intOrd.flip s.chunks⟩
  · unfold arg_min_num
    by_cases h0 : s.len = 0
    · rw [if_pos h0, chunkFold_result]
      rw [if_pos ((NumSeq.len_zero_iff s).mp h0)]
    · rw [if_neg h0, hc]
      unfold arg_min_numeric
      rw [hf]
  · unfold arg_max_num
    by_cases h0 : s.len = 0
    · rw [if_pos h0, chunkFold_result]
      rw [if_pos ((NumSeq.len_zero_iff s).mp h0)]
    · rw [if_neg h0, hc]
      unfold arg_max_numeric
      rw [hf]

/-- Witness for C5 at a two-chunk sequence with a null-backed raw 0 that wins
argmin (raw slices `[5,1]` and `[1,0]`, the 0 invalid). -/
theorem claim_C5_witness :
    arg_min_num (NumSeq.mk IsSorted.Not [[(5, true), (1, true)], [(1, true), (0, false)]]) =
      some 3 ∧
    arg_max_num (NumSeq.mk IsSorted.Not [[(5, true), (1, true)], [(1, true), (0, false)]]) =
      some 0 := by
  have h := claim_C5
    (NumSeq.mk IsSorted.Not [[(5, true), (1, true)], [(1, true), (0, false)]]) rfl rfl
  exact ⟨(h.1.trans h.2.2.1).trans (by decide), (h.2.1.trans h.2.2.2).trans (by decide)⟩

/-- Claim C6: for a null-free numeric sequence with at least one value, the
cross-chunk fold reducers agree with the single contiguous-slice reducers
applied to the concatenation of the chunks, for every sortedness flag —
chunking is observationally irrelevant without nulls. -/
theorem claim_C6 (s : NumSeq) (hnull : s.nullCount = 0) (hne : s.len ≠ 0) :
    arg_min_numeric s = arg_min_numeric_slice (rawJoin s.chunks) s.flag ∧
    arg_max_numeric s = arg_max_numeric_slice (rawJoin s.chunks) s.flag := by
  have hraw : rawJoin s.chunks ≠ [] := fun he => hne ((NumSeq.len_zero_iff s).mpr he)
  constructor
  · unfold arg_min_numeric arg_min_numeric_slice
    cases hf : s.flag with
    | Ascending => rfl
    | Descending => rw [NumSeq.len_eq]
    | Not =>
      rw [chunkFold_result, if_neg hraw]
  · unfold arg_max_numeric arg_max_numeric_slice
    cases hf : s.flag with
    | Ascending => rw [NumSeq.len_eq]
    | Descending => rfl
    | Not =>
      rw [chunkFold_result, if_neg hraw]

/-- Witness for C6 at the chunking `[5] / [1,7]` of `[5,1,7]`. -/
theorem claim_C6_witness :
    arg_min_numeric (NumSeq.mk IsSorted.Not [[(5, true)], [(1, true), (7, true)]]) =
      arg_min_numeric_slice
        (rawJoin (NumSeq.mk IsSorted.Not [[(5, true)], [(1, true), (7, true)]]).chunks)
        IsSorted.Not ∧
    arg_min_numeric (NumSeq.mk IsSorted.Not [[(5, true)], [(1, true), (7, true)]]) =
      some 1 ∧
    arg_max_numeric (NumSeq.mk IsSorted.Not [[(5, true)], [(1, true), (7, true)]]) =
      some 2 := by
  have h := claim_C6 (NumSeq.mk IsSorted.Not [[(5, true)], [(1, true), (7, true)]])
    (by decide) (by decide)
  exact ⟨h.1, h.1.trans (by decide), h.2.trans (by decide)⟩

/-- Claim C9: on a non-empty boolean sequence that is all-null, argmin and
argmax both return index 0; and when every non-null value is `true`
(`BooleanChunked::all`, modelled from the spec), argmin returns index 0. -/
theorem claim_C9 (s : BoolSeq) (hne : s.len ≠ 0) :
    (s.nullCount = s.len → arg_min_bool s = some 0 ∧ arg_max_bool s = some 0) ∧
    (s.allSpec = true → arg_min_bool s = some 0) := by
  constructor
  · intro hall
    constructor
    · unfold arg_min_bool
      rw [if_pos (Or.inr (Or.inl hall))]
    · unfold arg_max_bool
      rw [if_neg hne, if_pos hall]
  · intro htrue
    unfold arg_min_bool
    rw [if_pos (Or.inr (Or.inr (by rw [htrue])))]

/-- Witness for C9: `[null, null]` gives 0 for both queries; `[true, true]`
gives argmin 0. -/
theorem claim_C9_witness :
    arg_min_bool (BoolSeq.mk IsSorted.Not [[(false, false), (true, false)]]) = some 0 ∧
    arg_max_bool (BoolSeq.mk IsSorted.Not [[(false, false), (true, false)]]) = some 0 ∧
    arg_min_bool (BoolSeq.mk IsSorted.Not [[(true, true), (true, true)]]) = some 0 := by
  have h1 := (claim_C9 (BoolSeq.mk IsSorted.Not [[(false, false), (true, false)]])
    (by decide)).1 (by decide)
  have h2 := (claim_C9 (BoolSeq.mk IsSorted.Not [[(true, true), (true, true)]])
    (by decide)).2 (by decide)
  exact ⟨h1.1, h1.2, h2⟩

/-- Claim C10: for a text sequence with Unknown sortedness, argmin is the
index of the first occurrence of the smallest element in the total order
where null is below every string (byte-lexicographic on strings), argmax of
the largest (the flipped order); ties keep the earlier index, and the result
is absent exactly on the empty sequence. -/
theorem claim_C10 (s : StrSeq) (hf : s.flag = IsSorted.Not) :
    arg_min_str s =
      (if s.elems = [] then none else some (argminL optStrOrd s.elems)) ∧
    arg_max_str s =
      (if s.elems = [] then none else some (argminL optStrOrd.flip s.elems)) :=
  ⟨arg_min_str_not s hf, arg_max_str_not s hf⟩

/-- Witness for C10 at `[null, "b", "a"]` (bytes `[98]`, `[97]`): argmin 0
(null smallest), argmax 1 ("b" largest, first occurrence). -/
theorem claim_C10_witness :
    arg_min_str (StrSeq.mk IsSorted.Not [none, some [98], some [97]]) = some 0 ∧
    arg_max_str (StrSeq.mk IsSorted.Not [none, some [98], some [97]]) = some 1 := by
  have h := claim_C10 (StrSeq.mk IsSorted.Not [none, some [98], some [97]]) rfl
  exact ⟨h.1.trans (by decide), h.2.trans (by decide)⟩

/-- Counterexample to C1 as stated: the empty boolean sequence does not yield
"no result" for `arg_min` — the source's first branch groups `is_empty` with
the all-null case and returns `Some(0)`. -/
theorem claim_C1_counterexample :
    (BoolSeq.mk IsSorted.Not []).len = 0 ∧
    arg_min_bool (BoolSeq.mk IsSorted.Not []) = some 0 := by
  constructor
  · rfl
  · decide

/-- Claim C1 (amended): numeric sequences return None exactly when empty, for
both queries.  Boolean `arg_min` never returns None (it returns `Some 0` even
on the empty sequence); boolean `arg_max` returns None exactly when the
sequence is empty, or when it reaches the positional scan (some non-null
position, and nulls present or several chunks) and no element is `true`. -/
theorem claim_C1 :
    (∀ s : NumSeq,
      (arg_min_num s = none ↔ s.len = 0) ∧ (arg_max_num s = none ↔ s.len = 0)) ∧
    (∀ s : BoolSeq,
      arg_min_bool s ≠ none ∧
      (s.len = 0 → arg_min_bool s = some 0) ∧
      (arg_max_bool s = none ↔
        s.len = 0 ∨ (s.nullCount ≠ s.len ∧
          ¬(s.nullCount = 0 ∧ s.chunks.length = 1) ∧ some true ∉ s.elems))) := by
  constructor
  · intro s
    constructor
    · constructor
      · intro hnone
        by_contra hne
        rw [arg_min_num_not_empty s hne] at hnone
        cases hf : s.flag <;> rw [hf] at hnone <;> simp at hnone
      · intro h0
        unfold arg_min_num
        rw [if_pos h0]
    · constructor
      · intro hnone
        by_contra hne
        rw [arg_max_num_not_empty s hne] at hnone
        cases hf : s.flag <;> rw [hf] at hnone <;> simp at hnone
      · intro h0
        unfold arg_max_num
        rw [if_pos h0]
  · intro s
    refine ⟨?_, ?_, ?_⟩
    · by_cases h1 : s.len = 0 ∨ s.nullCount = s.len ∨ s.allSpec
      · unfold arg_min_bool
        rw [if_pos h1]
        exact Option.noConfusion
      · by_cases h2 : s.nullCount = 0 ∧ s.chunks.length = 1
        · unfold arg_min_bool
          rw [if_neg h1, if_pos h2]
          exact Option.noConfusion
        · unfold arg_min_bool
          rw [if_neg h1, if_neg h2]
          push_neg at h1
          have hfalse : s.allSpec = false := by
            cases hs : s.allSpec
            · rfl
            · exact absurd hs h1.2.2
          have hmem : some false ∈ s.elems := (allSpec_false_iff s).mp hfalse
          have := pos?_isSome_of_mem (fun o => o == some false || o == none)
            s.elems (some false) hmem (by simp)
          exact Option.isSome_iff_ne_none.mp this
    · intro h0
      unfold arg_min_bool
      rw [if_pos (Or.inl h0)]
    · by_cases h0 : s.len = 0
      · unfold arg_max_bool
        rw [if_pos h0]
        simp [h0]
      · by_cases hall : s.nullCount = s.len
        · unfold arg_max_bool
          rw [if_neg h0, if_pos hall]
          simp [h0, hall]
        · by_cases hbit : s.nullCount = 0 ∧ s.chunks.length = 1
          · unfold arg_max_bool
            rw [if_neg h0, if_neg hall, if_pos hbit]
            simp [h0, hall, hbit]
          · unfold arg_max_bool
            rw [if_neg h0, if_neg hall, if_neg hbit]
            rw [pos?_eq_none_iff]
            constructor
            · intro hforall
              refine Or.inr ⟨hall, hbit, fun hmem => ?_⟩
              have := hforall _ hmem
              simp at this
            · rintro (h0' | ⟨_, _, hnot⟩)
              · exact absurd h0' h0
              · intro x hx
                rw [beq_eq_false_iff_ne]
                intro he
                exact hnot (he ▸ hx)

/-- Witness for C1: a non-empty numeric sequence yields a result, and
`[false] / [false]` (two chunks, no true) makes boolean `arg_max` return
None. -/
theorem claim_C1_witness :
    arg_min_num (NumSeq.mk IsSorted.Not [[(3, true)]]) ≠ none ∧
    arg_max_bool (BoolSeq.mk IsSorted.Not [[(false, true)], [(false, true)]]) = none := by
  constructor
  · intro hnone
    have h := (claim_C1.1 (NumSeq.mk IsSorted.Not [[(3, true)]])).1.mp hnone
    exact absurd h (by decide)
  · exact (claim_C1.2 (BoolSeq.mk IsSorted.Not [[(false, true)], [(false, true)]])).2.2.mpr
      (by decide)

/-- Counterexample to C2 as stated: the boolean reducers never read the
sortedness flag, so a boolean sequence flagged Ascending whose content is
`[true, false]` has `arg_min` = 1 instead of the claimed 0. -/
theorem claim_C2_counterexample :
    (BoolSeq.mk IsSorted.Ascending [[(true, true), (false, true)]]).flag =
      IsSorted.Ascending ∧
    (BoolSeq.mk IsSorted.Ascending [[(true, true), (false, true)]]).len = 2 ∧
    arg_min_bool (BoolSeq.mk IsSorted.Ascending [[(true, true), (false, true)]]) =
      some 1 := by
  refine ⟨rfl, rfl, ?_⟩
  decide

/-- Claim C2 (amended): for non-empty numeric and text sequences (of machine
length), an Ascending flag forces argmin = 0 and argmax = length − 1 and a
Descending flag the symmetric answers, regardless of content; the boolean
reducer ignores the flag. -/
theorem claim_C2 :
    (∀ s : NumSeq, s.len ≠ 0 → s.len < usizeSize →
      (s.flag = IsSorted.Ascending →
        arg_min_num s = some 0 ∧ arg_max_num s = some (s.len - 1)) ∧
      (s.flag = IsSorted.Descending →
        arg_min_num s = some (s.len - 1) ∧ arg_max_num s = some 0)) ∧
    (∀ s : StrSeq, s.len ≠ 0 → s.len < usizeSize →
      (s.flag = IsSorted.Ascending →
        arg_min_str s = some 0 ∧ arg_max_str s = some (s.len - 1)) ∧
      (s.flag = IsSorted.Descending →
        arg_min_str s = some (s.len - 1) ∧ arg_max_str s = some 0)) := by
  constructor
  · intro s hne hszbound
    have hsub : usizeSub1 s.len = s.len - 1 := usizeSub1_eq s.len (by omega) hszbound
    rw [arg_min_num_not_empty s hne, arg_max_num_not_empty s hne]
    constructor
    · intro hf
      rw [hf]
      exact ⟨rfl, by rw [hsub]⟩
    · intro hf
      rw [hf]
      exact ⟨by rw [hsub], rfl⟩
  · intro s hne hszbound
    have hsub : usizeSub1 s.len = s.len - 1 := usizeSub1_eq s.len (by omega) hszbound
    unfold arg_min_str arg_max_str
    constructor
    · intro hf
      rw [hf]
      exact ⟨rfl, by rw [hsub]⟩
    · intro hf
      rw [hf]
      exact ⟨by rw [hsub], rfl⟩

/-- Witness for C2 at a misordered Ascending-flagged numeric sequence and a
Descending-flagged text sequence. -/
theorem claim_C2_witness :
    arg_min_num (NumSeq.mk IsSorted.Ascending [[(5, true), (1, true)]]) = some 0 ∧
    arg_max_num (NumSeq.mk IsSorted.Ascending [[(5, true), (1, true)]]) = some 1 ∧
    arg_min_str (StrSeq.mk IsSorted.Descending [some [97], none]) = some 1 ∧
    arg_max_str (StrSeq.mk IsSorted.Descending [some [97], none]) = some 0 := by
  have h1 := ((claim_C2.1 (NumSeq.mk IsSorted.Ascending [[(5, true), (1, true)]])
    (by decide) (by decide)).1 rfl)
  have h2 := ((claim_C2.2 (StrSeq.mk IsSorted.Descending [some [97], none])
    (by decide) (by decide)).2 rfl)
  exact ⟨h1.1, h1.2.trans (by decide), h2.1.trans (by decide), h2.2⟩

/-- Counterexample to C4 as stated: the text reducer consults the sortedness
flag before any empty check, so on the empty Ascending-flagged text sequence
`arg_max_str` evaluates `len - 1` at length 0 (usize wrap: 2^64 − 1) instead
of short-circuiting to the empty-case result. -/
theorem claim_C4_counterexample :
    (StrSeq.mk IsSorted.Ascending []).len = 0 ∧
    arg_max_str (StrSeq.mk IsSorted.Ascending []) = some (usizeSize - 1) := by
  constructor
  · rfl
  · decide

/-- Claim C4 (amended): on a length-0 sequence, the numeric arms return None
before consulting the flag or the vectorized primitive, and the boolean
reducers return their degenerate results (`Some 0` for argmin, None for
argmax) without reading the flag; but the text reducer consults the flag
first, and with an Ascending/Descending flag it evaluates `len − 1` at
length 0, wrapping to 2^64 − 1, instead of short-circuiting. -/
theorem claim_C4 :
    (∀ s : NumSeq, s.len = 0 → arg_min_num s = none ∧ arg_max_num s = none) ∧
    (∀ s : BoolSeq, s.len = 0 → arg_min_bool s = some 0 ∧ arg_max_bool s = none) ∧
    (∀ s : StrSeq, s.len = 0 →
      (s.flag = IsSorted.Ascending →
        arg_min_str s = some 0 ∧ arg_max_str s = some (usizeSize - 1)) ∧
      (s.flag = IsSorted.Descending →
        arg_min_str s = some (usizeSize - 1) ∧ arg_max_str s = some 0) ∧
      (s.flag = IsSorted.Not → arg_min_str s = none ∧ arg_max_str s = none)) := by
  refine ⟨?_, ?_, ?_⟩
  · intro s h0
    unfold arg_min_num arg_max_num
    rw [if_pos h0, if_pos h0]
    exact ⟨rfl, rfl⟩
  · intro s h0
    constructor
    · unfold arg_min_bool
      rw [if_pos (Or.inl h0)]
    · unfold arg_max_bool
      rw [if_pos h0]
  · intro s h0
    have helems : s.elems = [] := List.length_eq_zero.mp h0
    have hsub : usizeSub1 s.len = usizeSize - 1 := by
      rw [show s.len = 0 from h0]
      exact usizeSub1_zero
    refine ⟨?_, ?_, ?_⟩
    · intro hf
      unfold arg_min_str arg_max_str
      rw [hf]
      exact ⟨rfl, by rw [hsub]⟩
    · intro hf
      unfold arg_min_str arg_max_str
      rw [hf]
      exact ⟨by rw [hsub], rfl⟩
    · intro hf
      rw [arg_min_str_not s hf, arg_max_str_not s hf, if_pos helems, if_pos helems]
      exact ⟨rfl, rfl⟩

/-- Witness for C4 at empty sequences of each kind. -/
theorem claim_C4_witness :
    arg_min_num (NumSeq.mk IsSorted.Descending []) = none ∧
    arg_min_bool (BoolSeq.mk IsSorted.Descending []) = some 0 ∧
    arg_max_bool (BoolSeq.mk IsSorted.Descending []) = none ∧
    arg_min_str (StrSeq.mk IsSorted.Descending []) = some (usizeSize - 1) := by
  have h1 := (claim_C4.1 (NumSeq.mk IsSorted.Descending []) rfl).1
  have h2 := claim_C4.2.1 (BoolSeq.mk IsSorted.Descending []) rfl
  have h3 := ((claim_C4.2.2 (StrSeq.mk IsSorted.Descending []) rfl).2.1 rfl).1
  exact ⟨h1, h2.1, h2.2, h3⟩

/-- Counterexample to C3 as stated: on the empty Ascending-flagged text
sequence, `arg_min_str` returns index 0, which is not a valid index into a
length-0 sequence. -/
theorem claim_C3_counterexample :
    (StrSeq.mk IsSorted.Ascending []).len = 0 ∧
    arg_min_str (StrSeq.mk IsSorted.Ascending []) = some 0 := by
  exact ⟨rfl, rfl⟩

/-- Claim C3 (amended): for every NON-empty sequence of each physical kind
(of machine length), every index returned by argmin or argmax is in bounds
(0 ≤ idx < length).  On empty sequences the boolean argmin and the
flag-trusted text paths return out-of-range indices. -/
theorem claim_C3 :
    (∀ s : NumSeq, s.len ≠ 0 → s.len < usizeSize →
      ∀ i, (arg_min_num s = some i ∨ arg_max_num s = some i) → i < s.len) ∧
    (∀ s : BoolSeq, s.len ≠ 0 →
      ∀ i, (arg_min_bool s = some i ∨ arg_max_bool s = some i) → i < s.len) ∧
    (∀ s : StrSeq, s.len ≠ 0 → s.len < usizeSize →
      ∀ i, (arg_min_str s = some i ∨ arg_max_str s = some i) → i < s.len) := by
  refine ⟨?_, ?_, ?_⟩
  · intro s hne hb i hi
    have hraw : rawJoin s.chunks ≠ [] := fun he => hne ((NumSeq.len_zero_iff s).mpr he)
    have hmin_lt : argminL intOrd (rawJoin s.chunks) < s.len := by
      rw [NumSeq.len_eq]
      exact argminL_lt_length _ _ hraw
    have hmax_lt : argminL intOrd.flip (rawJoin s.chunks) < s.len := by
      rw [NumSeq.len_eq]
      exact argminL_lt_length _ _ hraw
    have hsub : usizeSub1 s.len = s.len - 1 := usizeSub1_eq s.len (by omega) hb
    rcases hi with h | h
    · rw [arg_min_num_not_empty s hne] at h
      cases hf : s.flag with
      | Ascending =>
        rw [hf] at h
        simp only [Option.some.injEq] at h
        omega
      | Descending =>
        rw [hf] at h
        simp only [Option.some.injEq] at h
        rw [hsub] at h
        omega
      | Not =>
        rw [hf] at h
        simp only [Option.some.injEq] at h
        omega
    · rw [arg_max_num_not_empty s hne] at h
      cases hf : s.flag with
      | Ascending =>
        rw [hf] at h
        simp only [Option.some.injEq] at h
        rw [hsub] at h
        omega
      | Descending =>
        rw [hf] at h
        simp only [Option.some.injEq] at h
        omega
      | Not =>
        rw [hf] at h
        simp only [Option.some.injEq] at h
        omega
  · intro s hne i hi
    have helen : s.elems.length = s.len := BoolSeq.elems_length s
    rcases hi with h | h
    · by_cases h1 : s.len = 0 ∨ s.nullCount = s.len ∨ s.allSpec
      · unfold arg_min_bool at h
        rw [if_pos h1] at h
        simp only [Option.some.injEq] at h
        omega
      · by_cases h2 : s.nullCount = 0 ∧ s.chunks.length = 1
        · unfold arg_min_bool at h
          rw [if_neg h1, if_pos h2] at h
          obtain ⟨c, hc⟩ := List.length_eq_one.mp h2.2
          have hvl : (boolValues s).length = s.len := boolValues_length_single s c hc
          have hvne : boolValues s ≠ [] := by
            intro he
            apply hne
            rw [← hvl, he]
            rfl
          have hlt := first_unset_bit_lt (boolValues s) hvne
          rw [hvl] at hlt
          simp only [Option.some.injEq] at h
          omega
        · unfold arg_min_bool at h
          rw [if_neg h1, if_neg h2] at h
          have := pos?_lt_length _ _ _ h
          rw [helen] at this
          exact this
    · by_cases h0 : s.len = 0
      · exact absurd h0 hne
      · by_cases hall : s.nullCount = s.len
        · unfold arg_max_bool at h
          rw [if_neg h0, if_pos hall] at h
          simp only [Option.some.injEq] at h
          omega
        · by_cases h2 : s.nullCount = 0 ∧ s.chunks.length = 1
          · unfold arg_max_bool at h
            rw [if_neg h0, if_neg hall, if_pos h2] at h
            obtain ⟨c, hc⟩ := List.length_eq_one.mp h2.2
            have hvl : (boolValues s).length = s.len := boolValues_length_single s c hc
            have hvne : boolValues s ≠ [] := by
              intro he
              apply hne
              rw [← hvl, he]
              rfl
            have hlt := first_set_bit_lt (boolValues s) hvne
            rw [hvl] at hlt
            simp only [Option.some.injEq] at h
            omega
          · unfold arg_max_bool at h
            rw [if_neg h0, if_neg hall, if_neg h2] at h
            have := pos?_lt_length _ _ _ h
            rw [helen] at this
            exact this
  · intro s hne hb i hi
    have helemsne : s.elems ≠ [] := fun he => hne (by rw [show s.len = s.elems.length from rfl, he]; rfl)
    have hsub : usizeSub1 s.len = s.len - 1 := usizeSub1_eq s.len (by omega) hb
    have hminlt : argminL optStrOrd s.elems < s.len := argminL_lt_length _ _ helemsne
    have hmaxlt : argminL optStrOrd.flip s.elems < s.len := argminL_lt_length _ _ helemsne
    rcases hi with h | h
    · cases hf : s.flag with
      | Ascending =>
        unfold arg_min_str at h
        rw [hf] at h
        simp only [Option.some.injEq] at h
        omega
      | Descending =>
        unfold arg_min_str at h
        rw [hf] at h
        simp only [Option.some.injEq] at h
        rw [hsub] at h
        omega
      | Not =>
        rw [arg_min_str_not s hf, if_neg helemsne] at h
        simp only [Option.some.injEq] at h
        omega
    · cases hf : s.flag with
      | Ascending =>
        unfold arg_max_str at h
        rw [hf] at h
        simp only [Option.some.injEq] at h
        rw [hsub] at h
        omega
      | Descending =>
        unfold arg_max_str at h
        rw [hf] at h
        simp only [Option.some.injEq] at h
        omega
      | Not =>
        rw [arg_max_str_not s hf, if_neg helemsne] at h
        simp only [Option.some.injEq] at h
        omega

/-- Witness for C3: the concrete indices returned on small non-empty
sequences of each kind are within bounds. -/
theorem claim_C3_witness :
    (1 : Nat) < (NumSeq.mk IsSorted.Not [[(7, true), (2, true)]]).len ∧
    (1 : Nat) < (BoolSeq.mk IsSorted.Not [[(true, true), (false, true)]]).len ∧
    (1 : Nat) < (StrSeq.mk IsSorted.Not [some [97], none]).len := by
  refine ⟨?_, ?_, ?_⟩
  · exact claim_C3.1 (NumSeq.mk IsSorted.Not [[(7, true), (2, true)]])
      (by decide) (by decide) 1 (Or.inl (by decide))
  · exact claim_C3.2.1 (BoolSeq.mk IsSorted.Not [[(true, true), (false, true)]])
      (by decide) 1 (Or.inl (by decide))
  · exact claim_C3.2.2 (StrSeq.mk IsSorted.Not [some [97], none])
      (by decide) (by decide) 1 (Or.inl (by decide))

/-- Counterexample to C8 as stated: under the claim's conditions (two chunks,
no nulls, not empty, not all-null), `[false] / [false]` has no element equal
to `true`, so `arg_max` returns no result rather than an index. -/
theorem claim_C8_counterexample :
    (BoolSeq.mk IsSorted.Not [[(false, true)], [(false, true)]]).len = 2 ∧
    (BoolSeq.mk IsSorted.Not [[(false, true)], [(false, true)]]).nullCount = 0 ∧
    (BoolSeq.mk IsSorted.Not [[(false, true)], [(false, true)]]).chunks.length = 2 ∧
    arg_max_bool (BoolSeq.mk IsSorted.Not [[(false, true)], [(false, true)]]) =
      none := by
  refine ⟨rfl, rfl, rfl, ?_⟩
  decide

/-- Claim C8 (amended): on the positional-scan path (non-empty, not all-null,
and nulls present or several chunks), `arg_max` is the index of the first
element equal to `true` — or no result when no element is `true` (nulls and
`false` never win) — and, when additionally not every non-null value is
`true`, `arg_min` is the index of the first element that is `false` or null,
which exists. -/
theorem claim_C8 (s : BoolSeq) (hne : s.len ≠ 0) (hnotallnull : s.nullCount ≠ s.len)
    (hscan : s.nullCount ≠ 0 ∨ s.chunks.length ≠ 1) :
    arg_max_bool s = pos? (fun o => o == some true) s.elems ∧
    (s.allSpec = false →
      arg_min_bool s = pos? (fun o => o == some false || o == none) s.elems ∧
      (pos? (fun o => o == some false || o == none) s.elems).isSome = true) := by
  have hbit : ¬(s.nullCount = 0 ∧ s.chunks.length = 1) := by
    rintro ⟨ha, hb⟩
    rcases hscan with h | h
    · exact h ha
    · exact h hb
  constructor
  · unfold arg_max_bool
    rw [if_neg hne, if_neg hnotallnull, if_neg hbit]
  · intro hfalse
    have hcond : ¬(s.len = 0 ∨ s.nullCount = s.len ∨ s.allSpec) := by
      rintro (h | h | h)
      · exact hne h
      · exact hnotallnull h
      · rw [hfalse] at h
        exact Bool.noConfusion h
    constructor
    · unfold arg_min_bool
      rw [if_neg hcond, if_neg hbit]
    · have hmem : some false ∈ s.elems := (allSpec_false_iff s).mp hfalse
      exact pos?_isSome_of_mem (fun o => o == some false || o == none)
        s.elems (some false) hmem (by simp)

/-- Witness for C8 at `[true] / [false, null]`: argmax finds the first true
at 0 and argmin the first false-or-null at 1. -/
theorem claim_C8_witness :
    arg_max_bool (BoolSeq.mk IsSorted.Not [[(true, true)], [(false, true), (true, false)]]) =
      some 0 ∧
    arg_min_bool (BoolSeq.mk IsSorted.Not [[(true, true)], [(false, true), (true, false)]]) =
      some 1 := by
  have h := claim_C8
    (BoolSeq.mk IsSorted.Not [[(true, true)], [(false, true), (true, false)]])
    (by decide) (by decide) (Or.inl (by decide))
  exact ⟨h.1.trans (by decide), ((h.2 (by decide)).1).trans (by decide)⟩

/-- Claim C7: for a bitmap of any bit length, the 64-bit word scanners return
the index of the first set (resp. unset) bit exactly as a naive bit-by-bit
linear scan would, except that a bitmap with zero unset bits or zero set bits
returns 0 immediately; hence on a no-null single-chunk boolean sequence the
bitmap path agrees with the naive positional scan of the logical elements
whenever the target value occurs. -/
theorem claim_C7 :
    (∀ mask : List Bool, true ∈ mask → false ∈ mask →
      first_set_bit mask = (pos? (fun v => v) mask).getD 0 ∧
      first_unset_bit mask = (pos? (fun v => !v) mask).getD 0) ∧
    (∀ mask : List Bool, true ∉ mask ∨ false ∉ mask →
      first_set_bit mask = 0 ∧ first_unset_bit mask = 0) ∧
    (∀ s : BoolSeq, s.nullCount = 0 → s.chunks.length = 1 →
      (true ∈ boolValues s →
        arg_max_bool s = some ((pos? (fun o => o == some true) s.elems).getD 0)) ∧
      (false ∈ boolValues s →
        arg_min_bool s =
          some ((pos? (fun o => o == some false || o == none) s.elems).getD 0))) := by
  refine ⟨?_, ?_, ?_⟩
  · intro mask htm hfm
    obtain ⟨i, hi⟩ :=
      Option.isSome_iff_exists.mp (pos?_isSome_of_mem (fun v => v) mask true htm rfl)
    obtain ⟨j, hj⟩ :=
      Option.isSome_iff_exists.mp (pos?_isSome_of_mem (fun v => !v) mask false hfm rfl)
    constructor
    · rw [first_set_bit_eq mask i hi hfm, hi]
      rfl
    · rw [first_unset_bit_eq mask j hj htm, hj]
      rfl
  · intro mask hdeg
    have hguard : unset_bits mask = 0 ∨ unset_bits mask = mask.length := by
      rcases hdeg with h | h
      · exact Or.inr ((unset_bits_eq_length_iff mask).mpr h)
      · exact Or.inl ((unset_bits_eq_zero_iff mask).mpr h)
    constructor
    · unfold first_set_bit
      rw [if_pos hguard]
    · unfold first_unset_bit
      rw [if_pos hguard]
  · intro s hnull hchunks
    obtain ⟨c, hc⟩ := List.length_eq_one.mp hchunks
    have helems : s.elems = (boolValues s).map some :=
      BoolSeq.elems_single_valid s c hc hnull
    have hvl : (boolValues s).length = s.len := boolValues_length_single s c hc
    constructor
    · intro htmem
      have hvne : boolValues s ≠ [] := List.ne_nil_of_mem htmem
      have hlen0 : s.len ≠ 0 := by
        rw [← hvl]
        have := List.length_pos.mpr hvne
        omega
      have hnotallnull : s.nullCount ≠ s.len := by
        rw [hnull]
        omega
      unfold arg_max_bool
      rw [if_neg hlen0, if_neg hnotallnull, if_pos ⟨hnull, hchunks⟩]
      have hpos : pos? (fun o => o == some true) s.elems =
          pos? (fun v => v) (boolValues s) := by
        rw [helems, pos?_map]
        exact pos?_congr _ _ _ (fun x _ => by cases x <;> rfl)
      rw [hpos]
      by_cases hfm : false ∈ boolValues s
      · obtain ⟨i, hi⟩ := Option.isSome_iff_exists.mp
          (pos?_isSome_of_mem (fun v => v) (boolValues s) true htmem rfl)
        rw [first_set_bit_eq (boolValues s) i hi hfm, hi]
        rfl
      · have h0 : first_set_bit (boolValues s) = 0 := by
          unfold first_set_bit
          rw [if_pos (Or.inl ((unset_bits_eq_zero_iff _).mpr hfm))]
        rw [h0]
        cases hv : boolValues s with
        | nil => exact absurd (hv ▸ htmem) (by simp)
        | cons b vs =>
          have hb : b = true := by
            cases b
            · exfalso
              apply hfm
              rw [hv]
              exact List.mem_cons_self _ _
            · rfl
          rw [hb]
          rfl
    · intro hfmem
      have hvne : boolValues s ≠ [] := List.ne_nil_of_mem hfmem
      have hlen0 : s.len ≠ 0 := by
        rw [← hvl]
        have := List.length_pos.mpr hvne
        omega
      have hmemelems : some false ∈ s.elems := by
        rw [helems]
        exact List.mem_map_of_mem some hfmem
      have hallfalse : s.allSpec = false := (allSpec_false_iff s).mpr hmemelems
      have hcond : ¬(s.len = 0 ∨ s.nullCount = s.len ∨ s.allSpec) := by
        rintro (h | h | h)
        · exact hlen0 h
        · rw [hnull] at h
          exact hlen0 h.symm
        · rw [hallfalse] at h
          exact Bool.noConfusion h
      unfold arg_min_bool
      rw [if_neg hcond, if_pos ⟨hnull, hchunks⟩]
      have hpos : pos? (fun o => o == some false || o == none) s.elems =
          pos? (fun v => !v) (boolValues s) := by
        rw [helems, pos?_map]
        exact pos?_congr _ _ _ (fun x _ => by cases x <;> rfl)
      rw [hpos]
      by_cases htm : true ∈ boolValues s
      · obtain ⟨j, hj⟩ := Option.isSome_iff_exists.mp
          (pos?_isSome_of_mem (fun v => !v) (boolValues s) false hfmem rfl)
        rw [first_unset_bit_eq (boolValues s) j hj htm, hj]
        rfl
      · have h0 : first_unset_bit (boolValues s) = 0 := by
          unfold first_unset_bit
          rw [if_pos (Or.inr ((unset_bits_eq_length_iff _).mpr htm))]
        rw [h0]
        cases hv : boolValues s with
        | nil => exact absurd (hv ▸ hfmem) (by simp)
        | cons b vs =>
          have hb : b = false := by
            cases b
            · rfl
            · exfalso
              apply htm
              rw [hv]
              exact List.mem_cons_self _ _
          rw [hb]
          rfl

/-- Witness for C7: a 66-bit mask spanning one full 64-bit word plus a
remainder, with its first set bit at 65; and a mixed no-null single-chunk
boolean sequence. -/
theorem claim_C7_witness :
    first_set_bit (List.replicate 65 false ++ [true]) = 65 ∧
    first_unset_bit (List.replicate 65 false ++ [true]) = 0 ∧
    first_set_bit (List.replicate 66 true) = 0 ∧
    arg_max_bool (BoolSeq.mk IsSorted.Not [[(false, true), (true, true)]]) = some 1 ∧
    arg_min_bool (BoolSeq.mk IsSorted.Not [[(false, true), (true, true)]]) = some 0 := by
  have h1 := claim_C7.1 (List.replicate 65 false ++ [true]) (by decide) (by decide)
  have h2 := claim_C7.2.1 (List.replicate 66 true) (Or.inr (by decide))
  have h3 := claim_C7.2.2 (BoolSeq.mk IsSorted.Not [[(false, true), (true, true)]])
    (by decide) (by decide)
  refine ⟨h1.1.trans (by decide), h1.2.trans (by decide), h2.1,
    (h3.1 (by decide)).trans (by decide), (h3.2 (by decide)).trans (by decide)⟩
